import Mathlib

/-!
Verification development for the vocabulary-store core of the language_tutor
repository: the SQLite-backed word table (apps/web/app/api/chat/db.ts), the
fuzzy word matcher (apps/web/app/api/tools/toolUtils.ts and the older copy in
apps/web/app/api/chat/oldSystemPrompt.ts), the batch progress updater
(apps/web/app/api/tools/updateWordProgress.ts), the add/remove word tools
(apps/web/app/api/chat/oldSystemPrompt.ts) and the random-sample query
(apps/web/app/api/tools/getRandomWords.ts).

Text is modelled as lists of characters.  SQLite LOWER and the JavaScript
toLowerCase agree on ASCII, which is all the code relies on (jyutping and
English text); both are modelled as ASCII lowercasing.  SQLite TRIM strips
spaces only, while the JavaScript trim and the regex class match general
whitespace; the two are modelled separately.
-/

set_option autoImplicit false

namespace LanguageTutor

/-- Text, modelled as a list of characters. -/
abbrev Str := List Char

/-- Whitespace as matched by the JavaScript regex class and by trim
(space, tab, line feed, carriage return, vertical tab, form feed). -/
def isWs (c : Char) : Bool :=
  c = ' ' || c = '\t' || c = '\n' || c = '\r' || c = '\x0b' || c = '\x0c'

/-- ASCII lowercasing of one character, as SQLite LOWER and (on ASCII input)
the JavaScript toLowerCase perform. -/
def asciiLower (c : Char) : Char :=
  if 'A' ≤ c ∧ c ≤ 'Z' then Char.ofNat (c.toNat + 32) else c

/-- Lowercase a string (ASCII). -/
def lowerStr (s : Str) : Str := s.map asciiLower

/-- JavaScript String.prototype.trim: drop leading and trailing whitespace. -/
def jsTrim (s : Str) : Str :=
  ((s.dropWhile isWs).reverse.dropWhile isWs).reverse

/-- SQLite TRIM with no second argument: drop leading and trailing spaces
(space characters only). -/
def sqlTrim (s : Str) : Str :=
  ((s.dropWhile (· = ' ')).reverse.dropWhile (· = ' ')).reverse

/-- Drop leading whitespace. -/
def ltrimWs (s : Str) : Str := s.dropWhile isWs

/-- Drop trailing whitespace. -/
def rtrimWs (s : Str) : Str := (s.reverse.dropWhile isWs).reverse

/-- String.prototype.split on the slash character. -/
def splitSlash : Str → List Str
  | [] => [[]]
  | c :: rest =>
    match splitSlash rest with
    | [] => [[]]
    | s :: ss => if c = '/' then [] :: s :: ss else (c :: s) :: ss

/-- Rejoin the slash-separated segments, dropping the whitespace that touches
each slash: the first segment loses its trailing whitespace, middle segments
both sides, the last its leading whitespace. -/
def joinTightSlash (first : Str) : List Str → Str
  | [] => first
  | [s] => rtrimWs first ++ '/' :: ltrimWs s
  | s :: ss => rtrimWs first ++ '/' :: joinTightSlash (ltrimWs s) ss

/-- The global regex replacement of a slash and the whitespace around it by a
bare slash: word.replace over the pattern of optional whitespace, a slash,
optional whitespace, producing a slash.  The left-to-right global scan
rewrites a whitespace run exactly when a slash follows it and absorbs the
whitespace following each slash, which is the same as splitting at the
slashes and rejoining with the slash-adjacent whitespace removed. -/
def collapseSlash (l : Str) : Str :=
  match splitSlash l with
  | [] => []
  | s :: ss => joinTightSlash s ss

/-- The global regex replacement of every whitespace run by a single space. -/
def collapseWs : Str → Str
  | [] => []
  | [c] => if isWs c then [' '] else [c]
  | c :: d :: rest =>
    if isWs c && isWs d then collapseWs (d :: rest)
    else (if isWs c then ' ' else c) :: collapseWs (d :: rest)

/-- normalizeWord from toolUtils.ts (and the identical copy in
oldSystemPrompt.ts): trim, lowercase, tighten whitespace around slashes,
collapse whitespace runs to one space, trim again.  On the empty string the
guard in toolUtils.ts returns the empty string, which this computation also
yields. -/
def normalizeWord (w : Str) : Str :=
  jsTrim (collapseWs (collapseSlash (lowerStr (jsTrim w))))

/-- One row of the words table (db.ts initializeSchema): english TEXT PRIMARY
KEY, cantonese_jyutping TEXT NOT NULL, last_practiced_date DATE NOT NULL,
proficiency_level INTEGER DEFAULT 1 CHECK at least 1 (nullable). -/
structure WordRecord where
  english : Str
  cantonese : Str
  lastPracticed : Str
  proficiency : Option Int
deriving DecidableEq

/-- The words table: rows in rowid (insertion) order. -/
abbrev Store := List WordRecord

/-- The SQL comparison LOWER(TRIM(a)) = LOWER(TRIM(b)) used by the exact-match
queries of findWordInDatabase. -/
def sqlEq (a b : Str) : Bool :=
  lowerStr (sqlTrim a) == lowerStr (sqlTrim b)

/-- The normalized-comparison loop body of findWordInDatabase in toolUtils.ts:
for one row, compare the normalized english, then the normalized
cantonese_jyutping, then each slash-delimited part of the normalized
cantonese_jyutping, returning the stored english on the first hit. -/
def fuzzyRow (ns : Str) (w : WordRecord) : Option Str :=
  if normalizeWord w.english == ns then some w.english
  else
    let nc := normalizeWord w.cantonese
    if nc == ns then some w.english
    else if ((splitSlash nc).map jsTrim).contains ns then some w.english
    else none

/-- The normalized-comparison loop body of the findWordInDatabase copy in
oldSystemPrompt.ts: as fuzzyRow but without the slash-part comparison. -/
def fuzzyRowOld (ns : Str) (w : WordRecord) : Option Str :=
  if normalizeWord w.english == ns then some w.english
  else if normalizeWord w.cantonese == ns then some w.english
  else none

/-- findWordInDatabase from toolUtils.ts: reject empty input, then an exact
(lower, trimmed) SQL match on english, then on cantonese_jyutping, then the
row-by-row normalized scan including slash-part splitting. -/
def findWordInDatabase (store : Store) (searchTerm : Str) : Option Str :=
  if searchTerm.isEmpty then none
  else
    let ns := normalizeWord searchTerm
    if ns.isEmpty then none
    else
      match store.find? (fun w => sqlEq w.english searchTerm) with
      | some w => some w.english
      | none =>
        match store.find? (fun w => sqlEq w.cantonese searchTerm) with
        | some w => some w.english
        | none => store.findSome? (fuzzyRow ns)

/-- The findWordInDatabase copy inside oldSystemPrompt.ts, used by its
removeWord and updateWordProgress tools: no empty-input guard and no
slash-part splitting in the normalized scan. -/
def findWordInDatabaseOld (store : Store) (searchTerm : Str) : Option Str :=
  let ns := normalizeWord searchTerm
  match store.find? (fun w => sqlEq w.english searchTerm) with
  | some w => some w.english
  | none =>
    match store.find? (fun w => sqlEq w.cantonese searchTerm) with
    | some w => some w.english
    | none => store.findSome? (fuzzyRowOld ns)

/-- Result of the addNewWord tool (oldSystemPrompt.ts): success true with the
inserted row, or the structured duplicate-key failure with success false. -/
structure AddResult where
  success : Bool
deriving DecidableEq

/-- The addNewWord tool: INSERT INTO words VALUES (english, cantonese, today,
1).  The TEXT PRIMARY KEY uses the default BINARY collation, so the duplicate
check is byte-exact equality on english; on SQLITE_CONSTRAINT_PRIMARYKEY the
tool returns the structured failure and the table is unchanged.  No field of
the input is validated for emptiness. -/
def addNewWord (today english cantonese : Str) (store : Store) :
    AddResult × Store :=
  if store.any (fun r => r.english == english) then
    ({ success := false }, store)
  else
    ({ success := true },
     store ++ [{ english := english, cantonese := cantonese,
                 lastPracticed := today, proficiency := some 1 }])

/-- One element of the words array given to the updateWordProgress tool
(apps/web/app/api/tools/updateWordProgress.ts): optional english, optional
cantonese_jyutping, and the success flag. -/
structure UpdateEntry where
  english : Option Str
  cantonese : Option Str
  success : Bool
deriving DecidableEq

/-- The JavaScript expression english OR cantonese_jyutping: the english field
when it is a non-empty string, otherwise the cantonese field. -/
def searchTermOf (e : UpdateEntry) : Option Str :=
  match e.english with
  | some s => if s.isEmpty then e.cantonese else some s
  | none => e.cantonese

/-- Abbreviated text of the invalid-entry message pushed onto failedWords. -/
def invalidEntryReason : Str :=
  "either english or cantonese_jyutping must be a non-empty string".data

/-- Abbreviated text of the not-found message pushed onto failedWords. -/
def notFoundReason : Str := "Word not found in database".data

/-- Abbreviated text of the retrieval-failure message pushed onto
failedWords. -/
def retrievalReason : Str := "data retrieval failed".data

/-- What one loop iteration of updateWordProgress pushes: an updated-word
snapshot onto updatedWords, or a term/reason pair onto failedWords. -/
inductive EntryOutcome where
  | ok (w : WordRecord)
  | err (term reason : Str)
deriving DecidableEq

/-- The UPDATE statement: set last_practiced_date and proficiency_level on
every row whose english equals the key byte-exactly. -/
def updateRow (today : Str) (key : Str) (newProf : Int) (r : WordRecord) :
    WordRecord :=
  if r.english == key then
    { r with lastPracticed := today, proficiency := some newProf }
  else r

/-- One iteration of the word loop in updateWordProgress (toolUtils variant):
pick the search term; reject an absent or empty term; resolve it with
findWordInDatabase, where a null or empty result is the not-found branch;
re-read the row; compute the new level as current plus one on success and
the floor-at-one decrement on failure, the current level defaulting to 1
when the column is NULL; run the UPDATE; read the updated row back for the
success snapshot (its NULL level again reported as 1). -/
def processEntry (today : Str) (store : Store) (e : UpdateEntry) :
    Store × EntryOutcome :=
  match searchTermOf e with
  | none => (store, .err "undefined".data invalidEntryReason)
  | some q =>
    if q.isEmpty then (store, .err "undefined".data invalidEntryReason)
    else
      match findWordInDatabase store q with
      | none => (store, .err q notFoundReason)
      | some k =>
        if k.isEmpty then (store, .err q notFoundReason)
        else
          match store.find? (fun w => w.english == k) with
          | none => (store, .err q retrievalReason)
          | some w =>
            let cur : Int := w.proficiency.getD 1
            let newProf : Int := if e.success then cur + 1 else max (cur - 1) 1
            let store' := store.map (updateRow today k newProf)
            match store'.find? (fun w => w.english == k) with
            | none => (store', .err q retrievalReason)
            | some w' =>
              (store', .ok { english := w'.english,
                             cantonese := w'.cantonese,
                             lastPracticed := w'.lastPracticed,
                             proficiency := some (w'.proficiency.getD 1) })

/-- The word loop of updateWordProgress: thread the table through the
entries, collecting the updated-word snapshots and the failures in input
order. -/
def runEntries (today : Str) (store : Store) :
    List UpdateEntry → Store × List WordRecord × List (Str × Str)
  | [] => (store, [], [])
  | e :: es =>
    let (s1, out) := processEntry today store e
    let (s2, ups, fls) := runEntries today s1 es
    match out with
    | .ok w => (s2, w :: ups, fls)
    | .err t r => (s2, ups, (t, r) :: fls)

/-- Result object of the updateWordProgress tool. -/
structure UpdateResult where
  success : Bool
  updated : List WordRecord
  failed : List (Str × Str)
deriving DecidableEq

/-- The updateWordProgress tool (toolUtils variant): an empty words array
returns success false with empty lists; otherwise the loop runs over every
entry and the overall success flag is whether at least one word was
updated. -/
def updateWordProgress (today : Str) (store : Store)
    (entries : List UpdateEntry) : UpdateResult × Store :=
  if entries.isEmpty then
    ({ success := false, updated := [], failed := [] }, store)
  else
    let (s, ups, fls) := runEntries today store entries
    ({ success := decide (0 < ups.length), updated := ups, failed := fls }, s)

/-- The removeWord tool (oldSystemPrompt.ts): resolve the query with the
local matcher copy (no slash-part rule); a null or empty result leaves the
table unchanged and reports not found; otherwise DELETE the rows whose
english equals the resolved key byte-exactly. -/
def removeWord (q : Str) (store : Store) : Store :=
  match findWordInDatabaseOld store q with
  | none => store
  | some k => if k.isEmpty then store else store.filter (fun r => !(r.english == k))

/-- Row coercion applied by the read queries: a NULL proficiency_level is
reported as 1. -/
def coerceProf (w : WordRecord) : WordRecord :=
  { w with proficiency := some (w.proficiency.getD 1) }

/-- The getRandomWords tool: SELECT all rows ORDER BY RANDOM() LIMIT 50.  The
randomness is modelled by taking the shuffled row list (an arbitrary
permutation of the table) as input; the tool keeps its first 50 rows and
reports NULL levels as 1. -/
def getRandomWords (shuffled : Store) : Store :=
  (shuffled.take 50).map coerceProf

/-- The mutating tool calls the hosted model can issue against the store:
add_new_word, update_word_progress (the toolUtils variant) and removeWord,
each carrying the date of the day it runs. -/
inductive Op where
  | add (today english cantonese : Str)
  | update (today : Str) (entries : List UpdateEntry)
  | remove (q : Str)

/-- Effect of one tool call on the words table. -/
def applyOp (store : Store) : Op → Store
  | .add t e c => (addNewWord t e c store).2
  | .update t es => (updateWordProgress t store es).2
  | .remove q => removeWord q store

/-- Tables reachable from the empty table created by initializeSchema through
any sequence of tool calls. -/
inductive Reachable : Store → Prop where
  | init : Reachable []
  | step (op : Op) {s : Store} : Reachable s → Reachable (applyOp s op)

/-! ### Helper lemmas -/

theorem find?_eq_some_key {store : Store} {k : Str} {r : WordRecord}
    (h : store.find? (fun w => w.english == k) = some r) :
    r ∈ store ∧ r.english = k := by
  refine ⟨List.mem_of_find?_eq_some h, ?_⟩
  have := List.find?_some h
  simpa using this

theorem addNewWord_eq_of_dup {e : Str} {store : Store} (t c : Str)
    (h : (store.any fun r => r.english == e) = true) :
    addNewWord t e c store = ({ success := false }, store) := by
  simp [addNewWord, h]

theorem addNewWord_eq_of_fresh {e : Str} {store : Store} (t c : Str)
    (h : (store.any fun r => r.english == e) = false) :
    addNewWord t e c store =
      ({ success := true },
       store ++ [{ english := e, cantonese := c, lastPracticed := t,
                   proficiency := some 1 }]) := by
  simp [addNewWord, h]

theorem any_key_eq_false {e : Str} {store : Store}
    (hfresh : ∀ u ∈ store, u.english ≠ e) :
    (store.any fun r => r.english == e) = false := by
  rw [List.any_eq_false]
  intro u hu
  simpa using hfresh u hu

theorem updateRow_english (today k : Str) (np : Int) (r : WordRecord) :
    (updateRow today k np r).english = r.english := by
  unfold updateRow
  split <;> rfl

theorem updateRow_cantonese (today k : Str) (np : Int) (r : WordRecord) :
    (updateRow today k np r).cantonese = r.cantonese := by
  unfold updateRow
  split <;> rfl

/-- The UPDATE statement does not change which rows any english-only
predicate selects. -/
theorem find?_english_map_updateRow (today k : Str) (np : Int)
    (store : Store) (p : Str → Bool) :
    (store.map (updateRow today k np)).find? (fun w => p w.english) =
      (store.find? (fun w => p w.english)).map (updateRow today k np) := by
  rw [List.find?_map]
  have h : ((fun w => p w.english) ∘ updateRow today k np) =
      (fun w => p w.english) := by
    funext w
    simp [Function.comp, updateRow_english]
  rw [h]

theorem find?_cantonese_map_updateRow (today k : Str) (np : Int)
    (store : Store) (p : Str → Bool) :
    (store.map (updateRow today k np)).find? (fun w => p w.cantonese) =
      (store.find? (fun w => p w.cantonese)).map (updateRow today k np) := by
  rw [List.find?_map]
  have h : ((fun w => p w.cantonese) ∘ updateRow today k np) =
      (fun w => p w.cantonese) := by
    funext w
    simp [Function.comp, updateRow_cantonese]
  rw [h]

/-- The matcher reads only the english and cantonese_jyutping columns, which
the UPDATE statement leaves untouched, so running the matcher before or
after an update gives the same answer. -/
theorem findWordInDatabase_map_updateRow (today k : Str) (np : Int)
    (store : Store) (q : Str) :
    findWordInDatabase (store.map (updateRow today k np)) q =
      findWordInDatabase store q := by
  have hfe := find?_english_map_updateRow today k np store (fun s => sqlEq s q)
  have hfc := find?_cantonese_map_updateRow today k np store (fun s => sqlEq s q)
  have hfz : (store.map (updateRow today k np)).findSome?
      (fuzzyRow (normalizeWord q)) =
      store.findSome? (fuzzyRow (normalizeWord q)) := by
    rw [List.findSome?_map]
    congr 1
    funext w
    simp [fuzzyRow, Function.comp, updateRow_english, updateRow_cantonese]
  simp only [findWordInDatabase, hfe, hfc, hfz]
  cases h1 : store.find? (fun w => sqlEq w.english q) <;>
    cases h2 : store.find? (fun w => sqlEq w.cantonese q) <;>
      simp [updateRow_english]

/-! ### C1: the per-entry proficiency and date update -/

/-- When the search term of an entry resolves, the store after the entry is
the store with the UPDATE applied to the resolved key, the new level being
computed from the first row carrying that key. -/
theorem processEntry_resolved_fst
    (today : Str) (store : Store) (e : UpdateEntry) (q k : Str)
    (r : WordRecord)
    (hq : searchTermOf e = some q)
    (hfind : findWordInDatabase store q = some k)
    (hk : k ≠ [])
    (hr : store.find? (fun w => w.english == k) = some r) :
    (processEntry today store e).1 =
      store.map (updateRow today k
        (if e.success then r.proficiency.getD 1 + 1
         else max (r.proficiency.getD 1 - 1) 1)) := by
  have hqne : q.isEmpty = false := by
    cases q with
    | nil => simp [findWordInDatabase] at hfind
    | cons a l => rfl
  have hkne : k.isEmpty = false := by
    cases k with
    | nil => exact absurd rfl hk
    | cons a l => rfl
  unfold processEntry
  rw [hq]
  simp only [hqne, Bool.false_eq_true, if_false, hfind, hkne, hr]
  cases hfw : (store.map (updateRow today k
      (if e.success then r.proficiency.getD 1 + 1
       else max (r.proficiency.getD 1 - 1) 1))).find?
      (fun w => w.english == k) <;> simp [hfw]

/-- Every row of the updated store that carries the updated key shows the
new date and the new level. -/
theorem mem_map_updateRow_key {store : Store} {today k : Str} {np : Int}
    {w : WordRecord} (hw : w ∈ store.map (updateRow today k np))
    (hwk : w.english = k) :
    w.lastPracticed = today ∧ w.proficiency = some np := by
  obtain ⟨u, hu, huw⟩ := List.mem_map.mp hw
  by_cases hue : u.english = k
  · subst huw
    simp [updateRow, hue]
  · exfalso
    apply hue
    rw [← huw] at hwk
    simp [updateRow, hue] at hwk

/-- The updated store still carries a row with the updated key. -/
theorem exists_key_map_updateRow {store : Store} {k : Str}
    {r : WordRecord} (today : Str) (np : Int)
    (hrmem : r ∈ store) (hrk : r.english = k) :
    ∃ w ∈ store.map (updateRow today k np), w.english = k := by
  refine ⟨updateRow today k np r, List.mem_map_of_mem _ hrmem, ?_⟩
  rw [updateRow_english]
  exact hrk

/-- C1: for every batch entry passed to updateWordProgress whose search term
resolves to a stored word, every row carrying that word after the entry is
processed has proficiency level plus 1 on success and max(level - 1, 1) on
failure (level read from the store, NULL counting as 1) and its
last-practiced date set to the date of the call. -/
theorem updateWordProgress_entry_sets_level_and_date
    (today : Str) (store : Store) (e : UpdateEntry) (q k : Str)
    (r : WordRecord)
    (hq : searchTermOf e = some q)
    (hfind : findWordInDatabase store q = some k)
    (hk : k ≠ [])
    (hr : store.find? (fun w => w.english == k) = some r) :
    (∃ w ∈ (processEntry today store e).1, w.english = k) ∧
    ∀ w ∈ (processEntry today store e).1, w.english = k →
      w.lastPracticed = today ∧
      w.proficiency = some (if e.success then r.proficiency.getD 1 + 1
                            else max (r.proficiency.getD 1 - 1) 1) := by
  obtain ⟨hrmem, hrk⟩ := find?_eq_some_key hr
  rw [processEntry_resolved_fst today store e q k r hq hfind hk hr]
  constructor
  · exact exists_key_map_updateRow today _ hrmem hrk
  · intro w hw hwk
    obtain ⟨hdate, hprof⟩ := mem_map_updateRow_key hw hwk
    exact ⟨hdate, hprof⟩

/-- Witness for C1 on a concrete table and entry. -/
theorem updateWordProgress_entry_sets_level_and_date_witness :
    (∃ w ∈ (processEntry "2026-10-11".data
        [⟨"cat".data, "maau1".data, "2024-01-01".data, some 2⟩]
        ⟨some "cat".data, none, true⟩).1, w.english = "cat".data) ∧
    ∀ w ∈ (processEntry "2026-10-11".data
        [⟨"cat".data, "maau1".data, "2024-01-01".data, some 2⟩]
        ⟨some "cat".data, none, true⟩).1, w.english = "cat".data →
      w.lastPracticed = "2026-10-11".data ∧
      w.proficiency = some (if (true : Bool) then
          (some (2 : Int)).getD 1 + 1 else max ((some (2 : Int)).getD 1 - 1) 1) :=
  updateWordProgress_entry_sets_level_and_date
    "2026-10-11".data
    [⟨"cat".data, "maau1".data, "2024-01-01".data, some 2⟩]
    ⟨some "cat".data, none, true⟩
    "cat".data "cat".data
    ⟨"cat".data, "maau1".data, "2024-01-01".data, some 2⟩
    (by decide) (by decide) (by decide) (by decide)

/-! ### C6: duplicate insert is a structured failure and leaves the first
record intact -/

/-- C6: inserting the same canonical key twice (byte-identical english)
yields the structured duplicate-key failure on the second call, the store is
exactly what it was after the first insert, and the first record still holds
its original translation, date and proficiency 1. -/
theorem addNewWord_duplicate_fails
    (t1 t2 e c c2 : Str) (store : Store)
    (hfresh : ∀ u ∈ store, u.english ≠ e) :
    (addNewWord t2 e c2 (addNewWord t1 e c store).2).1.success = false ∧
    (addNewWord t2 e c2 (addNewWord t1 e c store).2).2 =
      (addNewWord t1 e c store).2 ∧
    ∃ u ∈ (addNewWord t2 e c2 (addNewWord t1 e c store).2).2,
      u.english = e ∧ u.cantonese = c ∧ u.lastPracticed = t1 ∧
      u.proficiency = some 1 := by
  have h1 := any_key_eq_false hfresh
  have hs1 : (addNewWord t1 e c store).2 =
      store ++ [{ english := e, cantonese := c, lastPracticed := t1,
                  proficiency := some 1 }] := by
    rw [addNewWord_eq_of_fresh t1 c h1]
  have h2 : ((addNewWord t1 e c store).2).any (fun r => r.english == e) = true := by
    rw [hs1, List.any_eq_true]
    exact ⟨_, List.mem_append_right _ (List.mem_singleton_self _), by simp⟩
  rw [addNewWord_eq_of_dup t2 c2 h2]
  refine ⟨rfl, rfl, ?_⟩
  refine ⟨{ english := e, cantonese := c, lastPracticed := t1,
            proficiency := some 1 }, ?_, rfl, rfl, rfl, rfl⟩
  rw [hs1]
  exact List.mem_append_right _ (List.mem_singleton_self _)

/-- Witness for C6 on a concrete table. -/
theorem addNewWord_duplicate_fails_witness :
    (addNewWord "2026-10-12".data "cat".data "miu1".data
      (addNewWord "2026-10-11".data "cat".data "maau1".data []).2).1.success
        = false ∧
    (addNewWord "2026-10-12".data "cat".data "miu1".data
      (addNewWord "2026-10-11".data "cat".data "maau1".data []).2).2 =
      (addNewWord "2026-10-11".data "cat".data "maau1".data []).2 ∧
    ∃ u ∈ (addNewWord "2026-10-12".data "cat".data "miu1".data
      (addNewWord "2026-10-11".data "cat".data "maau1".data []).2).2,
      u.english = "cat".data ∧ u.cantonese = "maau1".data ∧
      u.lastPracticed = "2026-10-11".data ∧ u.proficiency = some 1 :=
  addNewWord_duplicate_fails "2026-10-11".data "2026-10-12".data
    "cat".data "maau1".data "miu1".data [] (by simp)

/-! ### C7: empty-field validation -/

/-- Counterexample to C7: addNewWord performs no emptiness validation.
Adding the word cat with an empty translation to the empty store succeeds
and creates a record whose translation is empty, contradicting both the
claimed InvalidInput rejection and the claimed store invariant. -/
theorem addNewWord_empty_translation_cex :
    (addNewWord "2026-10-11".data "cat".data [] []).1.success = true ∧
    ∃ u ∈ (addNewWord "2026-10-11".data "cat".data [] []).2,
      u.english = "cat".data ∧ u.cantonese = [] := by
  decide

/-- C7 as amended: addNewWord rejects nothing for emptiness.  Whenever the
canonical key is not already present, adding a word with an empty
translation succeeds and the store then contains a record with an empty
translation; only a duplicate key stops an insert. -/
theorem addNewWord_accepts_empty_translation
    (t e : Str) (store : Store)
    (hfresh : ∀ u ∈ store, u.english ≠ e) :
    (addNewWord t e [] store).1.success = true ∧
    ∃ u ∈ (addNewWord t e [] store).2, u.english = e ∧ u.cantonese = [] := by
  have h1 := any_key_eq_false hfresh
  rw [addNewWord_eq_of_fresh t [] h1]
  refine ⟨rfl, ?_⟩
  refine ⟨{ english := e, cantonese := [], lastPracticed := t,
            proficiency := some 1 }, ?_, rfl, rfl⟩
  exact List.mem_append_right _ (List.mem_singleton_self _)

/-- Witness for the amended C7 on a concrete table. -/
theorem addNewWord_accepts_empty_translation_witness :
    (addNewWord "2026-10-11".data "dog".data []
        [⟨"cat".data, "maau1".data, "2024-01-01".data, some 1⟩]).1.success
      = true ∧
    ∃ u ∈ (addNewWord "2026-10-11".data "dog".data []
        [⟨"cat".data, "maau1".data, "2024-01-01".data, some 1⟩]).2,
      u.english = "dog".data ∧ u.cantonese = [] :=
  addNewWord_accepts_empty_translation "2026-10-11".data "dog".data
    [⟨"cat".data, "maau1".data, "2024-01-01".data, some 1⟩] (by decide)

/-! ### C10: primary-key uniqueness is byte-exact while the exact-match
lookup is case- and space-insensitive -/

/-- C10: a key that differs from a stored key only under the SQL
lower-and-trim comparison (for example by letter case or surrounding spaces)
but is not byte-identical to any stored key inserts successfully, after
which both records are in the store, even though findWordInDatabase already
resolves that key to the existing record through its case-insensitive
trimmed exact match. -/
theorem addNewWord_key_byte_exact
    (t c : Str) (e k : Str) (store : Store) (r : WordRecord)
    (hr : r ∈ store) (hk : r.english = k) (hne : e ≠ k)
    (hcase : lowerStr (sqlTrim e) = lowerStr (sqlTrim k))
    (hfresh : ∀ u ∈ store, u.english ≠ e)
    (hnorm : normalizeWord e ≠ []) :
    (addNewWord t e c store).1.success = true ∧
    r ∈ (addNewWord t e c store).2 ∧
    (∃ u ∈ (addNewWord t e c store).2, u.english = e) ∧
    (findWordInDatabase store e).isSome = true := by
  have hene : e ≠ [] := by
    intro h
    apply hnorm
    rw [h]
    rfl
  have h1 := any_key_eq_false hfresh
  have hadd2 : (addNewWord t e c store).2 =
      store ++ [{ english := e, cantonese := c, lastPracticed := t,
                  proficiency := some 1 }] := by
    rw [addNewWord_eq_of_fresh t c h1]
  refine ⟨by rw [addNewWord_eq_of_fresh t c h1], ?_, ?_, ?_⟩
  · rw [hadd2]
    exact List.mem_append_left _ hr
  · refine ⟨{ english := e, cantonese := c, lastPracticed := t,
              proficiency := some 1 }, ?_, rfl⟩
    rw [hadd2]
    exact List.mem_append_right _ (List.mem_singleton_self _)
  · have hee : e.isEmpty = false := by
      cases e with
      | nil => exact absurd rfl hene
      | cons a l => rfl
    have hns : (normalizeWord e).isEmpty = false := by
      cases h : normalizeWord e with
      | nil => exact absurd h hnorm
      | cons a l => rfl
    have hp : sqlEq r.english e = true := by
      simp [sqlEq, hk, hcase]
    cases hfw : store.find? (fun w => sqlEq w.english e) with
    | none =>
      rw [List.find?_eq_none] at hfw
      exact absurd hp (by simpa using hfw r hr)
    | some w => simp [findWordInDatabase, hee, hns, hfw]

/-- Witness for C10 on a concrete table: Cat inserts next to cat. -/
theorem addNewWord_key_byte_exact_witness :
    (addNewWord "2026-10-11".data "Cat".data "miu1".data
        [⟨"cat".data, "maau1".data, "2024-01-01".data, some 1⟩]).1.success
      = true ∧
    (⟨"cat".data, "maau1".data, "2024-01-01".data, some 1⟩ : WordRecord) ∈
      (addNewWord "2026-10-11".data "Cat".data "miu1".data
        [⟨"cat".data, "maau1".data, "2024-01-01".data, some 1⟩]).2 ∧
    (∃ u ∈ (addNewWord "2026-10-11".data "Cat".data "miu1".data
        [⟨"cat".data, "maau1".data, "2024-01-01".data, some 1⟩]).2,
      u.english = "Cat".data) ∧
    (findWordInDatabase
        [⟨"cat".data, "maau1".data, "2024-01-01".data, some 1⟩]
        "Cat".data).isSome = true :=
  addNewWord_key_byte_exact "2026-10-11".data "miu1".data
    "Cat".data "cat".data
    [⟨"cat".data, "maau1".data, "2024-01-01".data, some 1⟩]
    ⟨"cat".data, "maau1".data, "2024-01-01".data, some 1⟩
    (by decide) (by decide) (by decide) (by decide) (by decide) (by decide)

/-! ### C2: proficiency never falls below 1 in any reachable store -/

/-- Every row has a non-null proficiency level of at least 1. -/
def ProfOk (store : Store) : Prop :=
  ∀ r ∈ store, ∃ p : Int, r.proficiency = some p ∧ 1 ≤ p

theorem processEntry_shape (today : Str) (store : Store) (e : UpdateEntry)
    (h : ProfOk store) :
    (processEntry today store e).1 = store ∨
    ∃ k : Str, ∃ np : Int, 1 ≤ np ∧
      (processEntry today store e).1 = store.map (updateRow today k np) := by
  cases hq : searchTermOf e with
  | none => exact Or.inl (by simp [processEntry, hq])
  | some q =>
    cases hqe : q.isEmpty with
    | true => exact Or.inl (by simp [processEntry, hq, hqe])
    | false =>
      cases hf : findWordInDatabase store q with
      | none => exact Or.inl (by simp [processEntry, hq, hqe, hf])
      | some k =>
        cases hke : k.isEmpty with
        | true => exact Or.inl (by simp [processEntry, hq, hqe, hf, hke])
        | false =>
          cases hw : store.find? (fun w => w.english == k) with
          | none => exact Or.inl (by simp [processEntry, hq, hqe, hf, hke, hw])
          | some w =>
            obtain ⟨hwm, -⟩ := find?_eq_some_key hw
            obtain ⟨p, hp, hp1⟩ := h w hwm
            refine Or.inr ⟨k,
              (if e.success then w.proficiency.getD 1 + 1
               else max (w.proficiency.getD 1 - 1) 1), ?_, ?_⟩
            · rw [hp]
              cases e.success with
              | true => simp only [if_true, Option.getD_some]; omega
              | false =>
                simp only [Bool.false_eq_true, if_false]
                exact le_max_right _ _
            · simp only [processEntry, hq, hqe, Bool.false_eq_true, if_false,
                hf, hke, hw]
              cases hw2 : (store.map (updateRow today k
                  (if e.success then w.proficiency.getD 1 + 1
                   else max (w.proficiency.getD 1 - 1) 1))).find?
                  (fun w => w.english == k) <;> simp [hw2]

theorem profOk_map_updateRow {store : Store} (today k : Str) {np : Int}
    (hnp : 1 ≤ np) (h : ProfOk store) :
    ProfOk (store.map (updateRow today k np)) := by
  intro r hr
  obtain ⟨u, hu, hur⟩ := List.mem_map.mp hr
  by_cases hue : u.english == k
  · refine ⟨np, ?_, hnp⟩
    rw [← hur]
    simp [updateRow, hue]
  · obtain ⟨p, hp, hp1⟩ := h u hu
    refine ⟨p, ?_, hp1⟩
    rw [← hur]
    simp only [updateRow, hue, Bool.false_eq_true, if_false]
    exact hp

theorem processEntry_profOk (today : Str) (store : Store) (e : UpdateEntry)
    (h : ProfOk store) : ProfOk (processEntry today store e).1 := by
  rcases processEntry_shape today store e h with heq | ⟨k, np, hnp, heq⟩
  · rw [heq]; exact h
  · rw [heq]; exact profOk_map_updateRow today k hnp h

theorem runEntries_cons_fst (today : Str) (store : Store) (e : UpdateEntry)
    (es : List UpdateEntry) :
    (runEntries today store (e :: es)).1 =
      (runEntries today (processEntry today store e).1 es).1 := by
  cases hpe : processEntry today store e with
  | mk s1 out =>
    cases hre : runEntries today s1 es with
    | mk s2 rest =>
      obtain ⟨ups, fls⟩ := rest
      cases out <;> simp [runEntries, hpe, hre]

theorem runEntries_profOk (today : Str) :
    ∀ (entries : List UpdateEntry) (store : Store), ProfOk store →
      ProfOk (runEntries today store entries).1 := by
  intro entries
  induction entries with
  | nil => intro store h; exact h
  | cons e es ih =>
    intro store h
    rw [runEntries_cons_fst]
    exact ih _ (processEntry_profOk today store e h)

theorem updateWordProgress_profOk (today : Str) (store : Store)
    (entries : List UpdateEntry) (h : ProfOk store) :
    ProfOk (updateWordProgress today store entries).2 := by
  unfold updateWordProgress
  by_cases he : entries.isEmpty
  · simpa [he] using h
  · have h2 := runEntries_profOk today entries store h
    cases hre : runEntries today store entries with
    | mk s rest =>
      rw [hre] at h2
      cases rest with
      | mk ups fls => simpa [he] using h2

/-- C2: in every store reachable from the empty table through the tool
operations, every record has a non-null proficiency level of at least 1; in
particular arbitrarily many failure updates can never push any word below
level 1. -/
theorem reachable_proficiency_at_least_one (s : Store) (h : Reachable s) :
    ∀ r ∈ s, ∃ p : Int, r.proficiency = some p ∧ 1 ≤ p := by
  induction h with
  | init => intro r hr; simp at hr
  | step op hs ih =>
    rename_i s0
    cases op with
    | add t e c =>
      by_cases hd : (s0.any fun u => u.english == e) = true
      · intro r hr
        simp only [applyOp, addNewWord_eq_of_dup t c hd] at hr
        exact ih r hr
      · rw [Bool.not_eq_true] at hd
        intro r hr
        simp only [applyOp, addNewWord_eq_of_fresh t c hd] at hr
        rcases List.mem_append.mp hr with h1 | h2
        · exact ih r h1
        · rw [List.mem_singleton] at h2
          subst h2
          exact ⟨1, rfl, le_refl 1⟩
    | update t es => exact updateWordProgress_profOk t _ es ih
    | remove q =>
      intro r hr
      cases hf : findWordInDatabaseOld s0 q with
      | none =>
        simp only [applyOp, removeWord, hf] at hr
        exact ih r hr
      | some k =>
        cases hk : k.isEmpty with
        | true =>
          simp only [applyOp, removeWord, hf, hk, if_true] at hr
          exact ih r hr
        | false =>
          simp only [applyOp, removeWord, hf, hk, Bool.false_eq_true,
            if_false] at hr
          exact ih r (List.mem_of_mem_filter hr)

/-- Witness for C2: the store reached by adding cat and then recording one
failed practice attempt satisfies the floor. -/
theorem reachable_proficiency_at_least_one_witness :
    ∃ p : Int,
      (⟨"cat".data, "maau1".data, "2026-01-02".data, some 1⟩ :
        WordRecord).proficiency = some p ∧ 1 ≤ p :=
  reachable_proficiency_at_least_one
    (applyOp (applyOp [] (Op.add "2026-01-01".data "cat".data "maau1".data))
      (Op.update "2026-01-02".data [⟨some "cat".data, none, false⟩]))
    (Reachable.step (Op.update "2026-01-02".data
        [⟨some "cat".data, none, false⟩])
      (Reachable.step (Op.add "2026-01-01".data "cat".data "maau1".data)
        Reachable.init))
    ⟨"cat".data, "maau1".data, "2026-01-02".data, some 1⟩
    (by decide)

/-! ### C9: the random sample -/

/-- C9: getRandomWords returns at most 50 rows; distinct keys in the table
give distinct keys in the sample (no row twice); a table of fewer than 50
rows is returned in full (as a permutation of the whole table, with NULL
levels reported as 1); the empty table gives the empty sample. -/
theorem getRandomWords_sample (store shuffled : Store)
    (hperm : shuffled.Perm store) :
    (getRandomWords shuffled).length ≤ 50 ∧
    ((store.map (fun w => w.english)).Nodup →
      ((getRandomWords shuffled).map (fun w => w.english)).Nodup) ∧
    (store.length < 50 →
      (getRandomWords shuffled).Perm (store.map coerceProf)) ∧
    (store = [] → getRandomWords shuffled = []) := by
  refine ⟨?_, ?_, ?_, ?_⟩
  · simp only [getRandomWords, List.length_map, List.length_take]
    exact min_le_left _ _
  · intro hnd
    have h1 : (shuffled.map (fun w => w.english)).Nodup :=
      ((hperm.map _).nodup_iff).mpr hnd
    have h2 : ((shuffled.take 50).map (fun w => w.english)).Nodup :=
      List.Nodup.sublist ((List.take_sublist _ _).map _) h1
    simpa [getRandomWords, List.map_map, Function.comp_def, coerceProf]
      using h2
  · intro hlen
    have hsl : shuffled.length ≤ 50 := by
      rw [hperm.length_eq]
      omega
    rw [getRandomWords, List.take_of_length_le hsl]
    exact hperm.map _
  · intro h
    subst h
    rw [List.Perm.eq_nil hperm]
    rfl

/-- Witness for C9 on a concrete two-row table and shuffle. -/
theorem getRandomWords_sample_witness :
    (getRandomWords [⟨"dog".data, "gau2".data, "2024-01-02".data, none⟩,
        ⟨"cat".data, "maau1".data, "2024-01-01".data, some 1⟩]).length ≤ 50 ∧
    ((([⟨"cat".data, "maau1".data, "2024-01-01".data, some 1⟩,
        ⟨"dog".data, "gau2".data, "2024-01-02".data, none⟩] : Store).map
        (fun w => w.english)).Nodup →
      ((getRandomWords [⟨"dog".data, "gau2".data, "2024-01-02".data, none⟩,
          ⟨"cat".data, "maau1".data, "2024-01-01".data, some 1⟩]).map
        (fun w => w.english)).Nodup) ∧
    (([⟨"cat".data, "maau1".data, "2024-01-01".data, some 1⟩,
       ⟨"dog".data, "gau2".data, "2024-01-02".data, none⟩] : Store).length < 50 →
      (getRandomWords [⟨"dog".data, "gau2".data, "2024-01-02".data, none⟩,
          ⟨"cat".data, "maau1".data, "2024-01-01".data, some 1⟩]).Perm
        (([⟨"cat".data, "maau1".data, "2024-01-01".data, some 1⟩,
           ⟨"dog".data, "gau2".data, "2024-01-02".data, none⟩] : Store).map
          coerceProf)) ∧
    (([⟨"cat".data, "maau1".data, "2024-01-01".data, some 1⟩,
       ⟨"dog".data, "gau2".data, "2024-01-02".data, none⟩] : Store) = [] →
      getRandomWords [⟨"dog".data, "gau2".data, "2024-01-02".data, none⟩,
        ⟨"cat".data, "maau1".data, "2024-01-01".data, some 1⟩] = []) :=
  getRandomWords_sample
    [⟨"cat".data, "maau1".data, "2024-01-01".data, some 1⟩,
     ⟨"dog".data, "gau2".data, "2024-01-02".data, none⟩]
    [⟨"dog".data, "gau2".data, "2024-01-02".data, none⟩,
     ⟨"cat".data, "maau1".data, "2024-01-01".data, some 1⟩]
    (by decide)

/-! ### C8: one success then one failure restores the level -/

theorem updateWordProgress_single_snd (t : Str) (s : Store) (e : UpdateEntry) :
    (updateWordProgress t s [e]).2 = (processEntry t s e).1 := by
  cases hpe : processEntry t s e with
  | mk s1 out => cases out <;> simp [updateWordProgress, runEntries, hpe]

/-- C8: for a stored word of level p at least 1, a success update followed
immediately by a failure update on the same query (both run on the same day)
leaves the word at level p again; after the first call the level is p + 1;
both calls stamp the last-practiced date with the day of the call, and the
word is still present at the end. -/
theorem updateProgress_success_failure_roundtrip
    (today : Str) (store : Store) (q k : Str) (r : WordRecord) (p : Int)
    (hfind : findWordInDatabase store q = some k)
    (hk : k ≠ [])
    (hr : store.find? (fun w => w.english == k) = some r)
    (hp : r.proficiency = some p) (hp1 : 1 ≤ p) :
    (∀ w ∈ (updateWordProgress today store [⟨some q, none, true⟩]).2,
      w.english = k → w.lastPracticed = today ∧ w.proficiency = some (p + 1)) ∧
    (∀ w ∈ (updateWordProgress today
        (updateWordProgress today store [⟨some q, none, true⟩]).2
        [⟨some q, none, false⟩]).2,
      w.english = k → w.lastPracticed = today ∧ w.proficiency = some p) ∧
    (∃ w ∈ (updateWordProgress today
        (updateWordProgress today store [⟨some q, none, true⟩]).2
        [⟨some q, none, false⟩]).2, w.english = k) := by
  obtain ⟨hrmem, hrk⟩ := find?_eq_some_key hr
  have hqne : q.isEmpty = false := by
    cases q with
    | nil => simp [findWordInDatabase] at hfind
    | cons a l => rfl
  have hq1 : searchTermOf ⟨some q, none, true⟩ = some q := by
    simp [searchTermOf, hqne]
  have hq2 : searchTermOf ⟨some q, none, false⟩ = some q := by
    simp [searchTermOf, hqne]
  have hs1 : (updateWordProgress today store [⟨some q, none, true⟩]).2 =
      store.map (updateRow today k (p + 1)) := by
    rw [updateWordProgress_single_snd,
      processEntry_resolved_fst today store _ q k r hq1 hfind hk hr]
    simp [hp]
  have hfind2 : findWordInDatabase (store.map (updateRow today k (p + 1))) q =
      some k := by
    rw [findWordInDatabase_map_updateRow]
    exact hfind
  have hr2 : (store.map (updateRow today k (p + 1))).find?
      (fun w => w.english == k) = some (updateRow today k (p + 1) r) := by
    rw [find?_english_map_updateRow today k (p + 1) store (fun s => s == k),
      hr, Option.map_some']
  have hprof2 : (updateRow today k (p + 1) r).proficiency = some (p + 1) := by
    simp [updateRow, hrk]
  have hs2 : (updateWordProgress today
      (updateWordProgress today store [⟨some q, none, true⟩]).2
      [⟨some q, none, false⟩]).2 =
      (store.map (updateRow today k (p + 1))).map (updateRow today k p) := by
    rw [hs1, updateWordProgress_single_snd,
      processEntry_resolved_fst today _ _ q k (updateRow today k (p + 1) r)
        hq2 hfind2 hk hr2]
    have harith : max ((updateRow today k (p + 1) r).proficiency.getD 1 - 1) 1
        = p := by
      rw [hprof2]
      simp only [Option.getD_some, add_sub_cancel_right]
      exact max_eq_left hp1
    simp [harith]
  refine ⟨?_, ?_, ?_⟩
  · intro w hw hwk
    rw [hs1] at hw
    exact mem_map_updateRow_key hw hwk
  · intro w hw hwk
    rw [hs2] at hw
    exact mem_map_updateRow_key hw hwk
  · rw [hs2]
    exact exists_key_map_updateRow today p
      (List.mem_map_of_mem _ hrmem)
      (by rw [updateRow_english]; exact hrk)

/-- Witness for C8 on a concrete table at level 3. -/
theorem updateProgress_success_failure_roundtrip_witness :
    (∀ w ∈ (updateWordProgress "2026-10-11".data
        [⟨"cat".data, "maau1".data, "2024-01-01".data, some 3⟩]
        [⟨some "cat".data, none, true⟩]).2,
      w.english = "cat".data →
        w.lastPracticed = "2026-10-11".data ∧
        w.proficiency = some ((3 : Int) + 1)) ∧
    (∀ w ∈ (updateWordProgress "2026-10-11".data
        (updateWordProgress "2026-10-11".data
          [⟨"cat".data, "maau1".data, "2024-01-01".data, some 3⟩]
          [⟨some "cat".data, none, true⟩]).2
        [⟨some "cat".data, none, false⟩]).2,
      w.english = "cat".data →
        w.lastPracticed = "2026-10-11".data ∧ w.proficiency = some (3 : Int)) ∧
    (∃ w ∈ (updateWordProgress "2026-10-11".data
        (updateWordProgress "2026-10-11".data
          [⟨"cat".data, "maau1".data, "2024-01-01".data, some 3⟩]
          [⟨some "cat".data, none, true⟩]).2
        [⟨some "cat".data, none, false⟩]).2, w.english = "cat".data) :=
  updateProgress_success_failure_roundtrip "2026-10-11".data
    [⟨"cat".data, "maau1".data, "2024-01-01".data, some 3⟩]
    "cat".data "cat".data
    ⟨"cat".data, "maau1".data, "2024-01-01".data, some 3⟩ 3
    (by decide) (by decide) (by decide) (by decide) (by decide)

/-! ### C3: per-entry failure isolation in the batch update -/

/-- Like processEntry_shape but with no assumption on the store: the store
after one entry is the old store or the old store with one UPDATE applied. -/
theorem processEntry_fst_shape (today : Str) (store : Store) (e : UpdateEntry) :
    (processEntry today store e).1 = store ∨
    ∃ k : Str, ∃ np : Int,
      (processEntry today store e).1 = store.map (updateRow today k np) := by
  cases hq : searchTermOf e with
  | none => exact Or.inl (by simp [processEntry, hq])
  | some q =>
    cases hqe : q.isEmpty with
    | true => exact Or.inl (by simp [processEntry, hq, hqe])
    | false =>
      cases hf : findWordInDatabase store q with
      | none => exact Or.inl (by simp [processEntry, hq, hqe, hf])
      | some k =>
        cases hke : k.isEmpty with
        | true => exact Or.inl (by simp [processEntry, hq, hqe, hf, hke])
        | false =>
          cases hw : store.find? (fun w => w.english == k) with
          | none => exact Or.inl (by simp [processEntry, hq, hqe, hf, hke, hw])
          | some w =>
            refine Or.inr ⟨k,
              (if e.success then w.proficiency.getD 1 + 1
               else max (w.proficiency.getD 1 - 1) 1), ?_⟩
            simp only [processEntry, hq, hqe, Bool.false_eq_true, if_false,
              hf, hke, hw]
            cases hw2 : (store.map (updateRow today k
                (if e.success then w.proficiency.getD 1 + 1
                 else max (w.proficiency.getD 1 - 1) 1))).find?
                (fun w => w.english == k) <;> simp [hw2]

/-- Whatever one entry did to the store, the matcher still answers every
query the same way afterwards. -/
theorem findWordInDatabase_processEntry (today : Str) (store : Store)
    (a : UpdateEntry) (q : Str) :
    findWordInDatabase (processEntry today store a).1 q =
      findWordInDatabase store q := by
  rcases processEntry_fst_shape today store a with h | ⟨k, np, h⟩
  · rw [h]
  · rw [h, findWordInDatabase_map_updateRow]

/-- The english value the loop reports for a failed entry: the search term,
or the text undefined when no usable term was supplied. -/
def entryDisplayTerm (e : UpdateEntry) : Str :=
  match searchTermOf e with
  | none => "undefined".data
  | some q => if q.isEmpty then "undefined".data else q

/-- An entry that cannot be resolved to a stored word: no usable search
term, or the matcher answers null (or the empty string, which the loop also
treats as not found). -/
def entryUnresolvable (store : Store) (e : UpdateEntry) : Prop :=
  match searchTermOf e with
  | none => True
  | some q => q.isEmpty = true ∨ findWordInDatabase store q = none ∨
      findWordInDatabase store q = some []

theorem entryUnresolvable_processEntry (today : Str) (store : Store)
    (a e : UpdateEntry) (h : entryUnresolvable store e) :
    entryUnresolvable (processEntry today store a).1 e := by
  unfold entryUnresolvable at h ⊢
  cases hq : searchTermOf e with
  | none => trivial
  | some q =>
    rw [hq] at h
    have h2 : q.isEmpty = true ∨ findWordInDatabase store q = none ∨
        findWordInDatabase store q = some [] := h
    show q.isEmpty = true ∨
        findWordInDatabase (processEntry today store a).1 q = none ∨
        findWordInDatabase (processEntry today store a).1 q = some []
    rwa [findWordInDatabase_processEntry]

/-- An unresolvable entry leaves the store unchanged and produces exactly
one failure carrying its display term and a reason. -/
theorem processEntry_unresolvable (today : Str) (store : Store)
    (e : UpdateEntry) (h : entryUnresolvable store e) :
    ∃ rsn, processEntry today store e =
      (store, .err (entryDisplayTerm e) rsn) := by
  unfold entryUnresolvable at h
  cases hq : searchTermOf e with
  | none =>
    exact ⟨invalidEntryReason, by simp [processEntry, entryDisplayTerm, hq]⟩
  | some q =>
    rw [hq] at h
    cases hqe : q.isEmpty with
    | true =>
      exact ⟨invalidEntryReason,
        by simp [processEntry, entryDisplayTerm, hq, hqe]⟩
    | false =>
      rcases h with h | h | h
      · rw [hqe] at h
        exact absurd h (by simp)
      · exact ⟨notFoundReason,
          by simp [processEntry, entryDisplayTerm, hq, hqe, h]⟩
      · exact ⟨notFoundReason,
          by simp [processEntry, entryDisplayTerm, hq, hqe, h]⟩

theorem runEntries_cons_ok (today : Str) (store : Store) (e : UpdateEntry)
    (es : List UpdateEntry) (w : WordRecord)
    (h : (processEntry today store e).2 = .ok w) :
    runEntries today store (e :: es) =
      ((runEntries today (processEntry today store e).1 es).1,
       w :: (runEntries today (processEntry today store e).1 es).2.1,
       (runEntries today (processEntry today store e).1 es).2.2) := by
  cases hpe : processEntry today store e with
  | mk s1 out =>
    rw [hpe] at h
    simp only at h
    subst h
    cases hre : runEntries today s1 es with
    | mk s2 rest =>
      obtain ⟨ups, fls⟩ := rest
      simp [runEntries, hpe, hre]

theorem runEntries_cons_err (today : Str) (store : Store) (e : UpdateEntry)
    (es : List UpdateEntry) (t rsn : Str)
    (h : (processEntry today store e).2 = .err t rsn) :
    runEntries today store (e :: es) =
      ((runEntries today (processEntry today store e).1 es).1,
       (runEntries today (processEntry today store e).1 es).2.1,
       (t, rsn) :: (runEntries today (processEntry today store e).1 es).2.2) := by
  cases hpe : processEntry today store e with
  | mk s1 out =>
    rw [hpe] at h
    simp only at h
    subst h
    cases hre : runEntries today s1 es with
    | mk s2 rest =>
      obtain ⟨ups, fls⟩ := rest
      simp [runEntries, hpe, hre]

/-- Every entry of the batch ends up in exactly one of the two lists. -/
theorem runEntries_length (today : Str) :
    ∀ (entries : List UpdateEntry) (store : Store),
      (runEntries today store entries).2.1.length +
        (runEntries today store entries).2.2.length = entries.length := by
  intro entries
  induction entries with
  | nil => intro store; rfl
  | cons e es ih =>
    intro store
    cases ho : (processEntry today store e).2 with
    | ok w =>
      rw [runEntries_cons_ok today store e es w ho]
      have := ih (processEntry today store e).1
      simp only [List.length_cons]
      omega
    | err t rsn =>
      rw [runEntries_cons_err today store e es t rsn ho]
      have := ih (processEntry today store e).1
      simp only [List.length_cons]
      omega

/-- Every unresolvable entry of the batch is recorded in the failed list
under its display term; the batch is never cut short. -/
theorem runEntries_failed_mem (today : Str) :
    ∀ (entries : List UpdateEntry) (store : Store) (e : UpdateEntry),
      e ∈ entries → entryUnresolvable store e →
      ∃ f ∈ (runEntries today store entries).2.2,
        f.1 = entryDisplayTerm e := by
  intro entries
  induction entries with
  | nil =>
    intro store e he
    simp at he
  | cons a es ih =>
    intro store e he hu
    rcases List.mem_cons.mp he with rfl | hes
    · obtain ⟨rsn, hpe⟩ := processEntry_unresolvable today store e hu
      have h2 : (processEntry today store e).2 = .err (entryDisplayTerm e) rsn := by
        rw [hpe]
      rw [runEntries_cons_err today store e es _ _ h2]
      exact ⟨(entryDisplayTerm e, rsn), List.mem_cons_self _ _, rfl⟩
    · have hu2 := entryUnresolvable_processEntry today store a e hu
      obtain ⟨f, hf, hfd⟩ := ih (processEntry today store a).1 e hes hu2
      cases ho : (processEntry today store a).2 with
      | ok w =>
        rw [runEntries_cons_ok today store a es w ho]
        exact ⟨f, hf, hfd⟩
      | err t rsn =>
        rw [runEntries_cons_err today store a es t rsn ho]
        exact ⟨f, List.mem_cons_of_mem _ hf, hfd⟩

/-- C3: the batch update processes every entry (each lands in the updated
or the failed list, so the two counts sum to the batch size), records every
unresolvable entry in the failed list with a reason under its display term,
and reports overall success exactly when at least one entry succeeded. -/
theorem updateWordProgress_never_aborts (today : Str) (store : Store)
    (entries : List UpdateEntry) :
    (updateWordProgress today store entries).1.updated.length +
      (updateWordProgress today store entries).1.failed.length =
        entries.length ∧
    (updateWordProgress today store entries).1.success =
      decide (0 < (updateWordProgress today store entries).1.updated.length) ∧
    ∀ e ∈ entries, entryUnresolvable store e →
      ∃ f ∈ (updateWordProgress today store entries).1.failed,
        f.1 = entryDisplayTerm e := by
  cases hemp : entries.isEmpty with
  | true =>
    have hnil : entries = [] := List.isEmpty_iff.mp hemp
    subst hnil
    refine ⟨rfl, rfl, ?_⟩
    intro e he
    simp at he
  | false =>
    have hres : (updateWordProgress today store entries).1 =
        ⟨decide (0 < (runEntries today store entries).2.1.length),
         (runEntries today store entries).2.1,
         (runEntries today store entries).2.2⟩ := by
      cases hre : runEntries today store entries with
      | mk s rest =>
        obtain ⟨ups, fls⟩ := rest
        simp [updateWordProgress, hemp, hre]
    rw [hres]
    exact ⟨runEntries_length today entries store, rfl,
      fun e he hu => runEntries_failed_mem today entries store e he hu⟩

/-- Witness for C3 on a concrete batch with one resolvable and one
unresolvable entry. -/
theorem updateWordProgress_never_aborts_witness :
    (updateWordProgress "2026-10-11".data
        [⟨"cat".data, "maau1".data, "2024-01-01".data, some 1⟩]
        [⟨some "cat".data, none, true⟩,
         ⟨some "bogus".data, none, false⟩]).1.updated.length +
      (updateWordProgress "2026-10-11".data
        [⟨"cat".data, "maau1".data, "2024-01-01".data, some 1⟩]
        [⟨some "cat".data, none, true⟩,
         ⟨some "bogus".data, none, false⟩]).1.failed.length =
        ([⟨some "cat".data, none, true⟩,
          ⟨some "bogus".data, none, false⟩] : List UpdateEntry).length ∧
    (updateWordProgress "2026-10-11".data
        [⟨"cat".data, "maau1".data, "2024-01-01".data, some 1⟩]
        [⟨some "cat".data, none, true⟩,
         ⟨some "bogus".data, none, false⟩]).1.success =
      decide (0 < (updateWordProgress "2026-10-11".data
        [⟨"cat".data, "maau1".data, "2024-01-01".data, some 1⟩]
        [⟨some "cat".data, none, true⟩,
         ⟨some "bogus".data, none, false⟩]).1.updated.length) ∧
    ∀ e ∈ ([⟨some "cat".data, none, true⟩,
            ⟨some "bogus".data, none, false⟩] : List UpdateEntry),
      entryUnresolvable
          [⟨"cat".data, "maau1".data, "2024-01-01".data, some 1⟩] e →
        ∃ f ∈ (updateWordProgress "2026-10-11".data
            [⟨"cat".data, "maau1".data, "2024-01-01".data, some 1⟩]
            [⟨some "cat".data, none, true⟩,
             ⟨some "bogus".data, none, false⟩]).1.failed,
          f.1 = entryDisplayTerm e :=
  updateWordProgress_never_aborts "2026-10-11".data
    [⟨"cat".data, "maau1".data, "2024-01-01".data, some 1⟩]
    [⟨some "cat".data, none, true⟩, ⟨some "bogus".data, none, false⟩]

/-! ### C4: slash-part matching in the two matcher copies -/

/-- Counterexample to C4: a query equal to a single slash-delimited part of
a stored translation is resolved by the toolUtils matcher used by the batch
progress update, but not by the matcher copy inside oldSystemPrompt.ts that
the removeWord action uses, and removeWord therefore leaves the store
unchanged for such a query. -/
theorem slash_part_removeWord_cex :
    findWordInDatabase
      [⟨"shop".data, "sik6 coeng2 / zaap6 fo3 pou3".data,
        "2024-01-01".data, some 1⟩] "sik6 coeng2".data = some "shop".data ∧
    findWordInDatabaseOld
      [⟨"shop".data, "sik6 coeng2 / zaap6 fo3 pou3".data,
        "2024-01-01".data, some 1⟩] "sik6 coeng2".data = none ∧
    removeWord "sik6 coeng2".data
      [⟨"shop".data, "sik6 coeng2 / zaap6 fo3 pou3".data,
        "2024-01-01".data, some 1⟩] =
      [⟨"shop".data, "sik6 coeng2 / zaap6 fo3 pou3".data,
        "2024-01-01".data, some 1⟩] := by
  decide

/-- All the comparisons under which the toolUtils matcher can select a row
for a query. -/
def matchesAnyRule (q : Str) (w : WordRecord) : Bool :=
  sqlEq w.english q || sqlEq w.cantonese q ||
  normalizeWord w.english == normalizeWord q ||
  normalizeWord w.cantonese == normalizeWord q ||
  ((splitSlash (normalizeWord w.cantonese)).map jsTrim).contains
    (normalizeWord q)

theorem fuzzyRow_eq_some {ns : Str} {u : WordRecord} {x : Str}
    (h : fuzzyRow ns u = some x) :
    x = u.english ∧
    (normalizeWord u.english = ns ∨ normalizeWord u.cantonese = ns ∨
     ((splitSlash (normalizeWord u.cantonese)).map jsTrim).contains ns
       = true) := by
  unfold fuzzyRow at h
  by_cases h1 : normalizeWord u.english == ns
  · rw [if_pos h1] at h
    exact ⟨(Option.some_inj.mp h).symm, Or.inl (by simpa using h1)⟩
  · rw [if_neg h1] at h
    by_cases h2 : normalizeWord u.cantonese == ns
    · rw [if_pos h2] at h
      exact ⟨(Option.some_inj.mp h).symm, Or.inr (Or.inl (by simpa using h2))⟩
    · rw [if_neg h2] at h
      by_cases h3 : ((splitSlash (normalizeWord u.cantonese)).map
          jsTrim).contains ns = true
      · rw [if_pos h3] at h
        exact ⟨(Option.some_inj.mp h).symm, Or.inr (Or.inr h3)⟩
      · rw [if_neg h3] at h
        exact absurd h (by simp)

theorem findSome?_eq_of_all {g : WordRecord → Option Str} {a : Str} :
    ∀ l : List WordRecord, (∃ u ∈ l, (g u).isSome = true) →
      (∀ u ∈ l, ∀ x, g u = some x → x = a) →
      l.findSome? g = some a := by
  intro l
  induction l with
  | nil =>
    intro hex
    obtain ⟨u, hu, -⟩ := hex
    simp at hu
  | cons b bs ih =>
    intro hex hall
    cases hgb : g b with
    | some x =>
      have hx : x = a := hall b (List.mem_cons_self _ _) x hgb
      rw [List.findSome?_cons, hgb, hx]
    | none =>
      rw [List.findSome?_cons, hgb]
      refine ih ?_ (fun u hu x hx => hall u (List.mem_cons_of_mem _ hu) x hx)
      obtain ⟨u, hu, hs⟩ := hex
      rcases List.mem_cons.mp hu with rfl | hu2
      · rw [hgb] at hs
        simp at hs
      · exact ⟨u, hu2, hs⟩

/-- C4 as amended: the slash-part rule belongs only to the toolUtils
matcher.  For a stored record and a query that normalizes to the full
normalized translation or to any one of its slash-delimited parts, the
toolUtils matcher (used by the batch progress update) resolves the query to
that record's key whenever that record is the only one the matcher's rules
select; the oldSystemPrompt matcher (used by removeWord) only ever resolves
a query through the exact or whole-string-normalization rules, never
through slash parts. -/
theorem findWordInDatabase_slash_parts
    (store : Store) (q : Str) (r : WordRecord)
    (hr : r ∈ store)
    (hq : normalizeWord q = normalizeWord r.cantonese ∨
      ((splitSlash (normalizeWord r.cantonese)).map jsTrim).contains
        (normalizeWord q) = true)
    (hnq : normalizeWord q ≠ [])
    (huniq : ∀ u ∈ store, matchesAnyRule q u = true → u.english = r.english) :
    findWordInDatabase store q = some r.english ∧
    (∀ (s : Store) (t k : Str), findWordInDatabaseOld s t = some k →
      ∃ u ∈ s, u.english = k ∧
        (sqlEq u.english t = true ∨ sqlEq u.cantonese t = true ∨
         normalizeWord u.english = normalizeWord t ∨
         normalizeWord u.cantonese = normalizeWord t)) := by
  constructor
  · have hqne : q ≠ [] := by
      intro hcon
      apply hnq
      rw [hcon]
      rfl
    have hee : q.isEmpty = false := by
      cases q with
      | nil => exact absurd rfl hqne
      | cons a l => rfl
    have hns : (normalizeWord q).isEmpty = false := by
      cases hcon : normalizeWord q with
      | nil => exact absurd hcon hnq
      | cons a l => rfl
    have hgr : fuzzyRow (normalizeWord q) r = some r.english := by
      unfold fuzzyRow
      by_cases h1 : normalizeWord r.english == normalizeWord q
      · rw [if_pos h1]
      · rw [if_neg h1]
        rcases hq with h | h
        · have h2 : (normalizeWord r.cantonese == normalizeWord q) = true := by
            rw [h]
            exact beq_self_eq_true _
          rw [if_pos h2]
        · by_cases h2 : normalizeWord r.cantonese == normalizeWord q
          · rw [if_pos h2]
          · rw [if_neg h2, if_pos h]
    cases h1 : store.find? (fun w => sqlEq w.english q) with
    | some w =>
      have hwm := List.mem_of_find?_eq_some h1
      have hwp : sqlEq w.english q = true := by
        have := List.find?_some h1
        simpa using this
      have hweq : w.english = r.english :=
        huniq w hwm (by simp [matchesAnyRule, hwp])
      simp only [findWordInDatabase, hee, hns, Bool.false_eq_true, if_false,
        h1]
      rw [hweq]
    | none =>
      cases h2 : store.find? (fun w => sqlEq w.cantonese q) with
      | some w =>
        have hwm := List.mem_of_find?_eq_some h2
        have hwp : sqlEq w.cantonese q = true := by
          have := List.find?_some h2
          simpa using this
        have hweq : w.english = r.english :=
          huniq w hwm (by simp [matchesAnyRule, hwp])
        simp only [findWordInDatabase, hee, hns, Bool.false_eq_true, if_false,
          h1, h2]
        rw [hweq]
      | none =>
        simp only [findWordInDatabase, hee, hns, Bool.false_eq_true, if_false,
          h1, h2]
        refine findSome?_eq_of_all store ⟨r, hr, by rw [hgr]; rfl⟩ ?_
        intro u hu x hx
        obtain ⟨hxu, hcond⟩ := fuzzyRow_eq_some hx
        have hu2 : matchesAnyRule q u = true := by
          rcases hcond with h | h | h
          · simp only [matchesAnyRule, h, beq_self_eq_true, Bool.or_true,
              Bool.true_or]
          · simp only [matchesAnyRule, h, beq_self_eq_true, Bool.or_true,
              Bool.true_or]
          · simp only [matchesAnyRule, h, Bool.or_true]
        rw [hxu]
        exact huniq u hu hu2
  · intro s t k hfold
    unfold findWordInDatabaseOld at hfold
    cases h1 : s.find? (fun w => sqlEq w.english t) with
    | some w =>
      rw [h1] at hfold
      simp only [Option.some_inj] at hfold
      refine ⟨w, List.mem_of_find?_eq_some h1, hfold.symm ▸ rfl, ?_⟩
      have := List.find?_some h1
      exact Or.inl (by simpa using this)
    | none =>
      rw [h1] at hfold
      cases h2 : s.find? (fun w => sqlEq w.cantonese t) with
      | some w =>
        rw [h2] at hfold
        simp only [Option.some_inj] at hfold
        refine ⟨w, List.mem_of_find?_eq_some h2, hfold.symm ▸ rfl, ?_⟩
        have := List.find?_some h2
        exact Or.inr (Or.inl (by simpa using this))
      | none =>
        rw [h2] at hfold
        obtain ⟨u, hu, hgu⟩ := List.exists_of_findSome?_eq_some hfold
        unfold fuzzyRowOld at hgu
        by_cases hg1 : normalizeWord u.english == normalizeWord t
        · rw [if_pos hg1] at hgu
          refine ⟨u, hu, (Option.some_inj.mp hgu), ?_⟩
          exact Or.inr (Or.inr (Or.inl (by simpa using hg1)))
        · rw [if_neg hg1] at hgu
          by_cases hg2 : normalizeWord u.cantonese == normalizeWord t
          · rw [if_pos hg2] at hgu
            refine ⟨u, hu, (Option.some_inj.mp hgu), ?_⟩
            exact Or.inr (Or.inr (Or.inr (by simpa using hg2)))
          · rw [if_neg hg2] at hgu
            exact absurd hgu (by simp)

/-- Witness for the amended C4 on the compound-pronunciation example from
the spec. -/
theorem findWordInDatabase_slash_parts_witness :
    findWordInDatabase
        [⟨"shop".data, "sik6 coeng2 / zaap6 fo3 pou3".data,
          "2024-01-01".data, some 1⟩] "sik6 coeng2".data =
      some "shop".data ∧
    (∀ (s : Store) (t k : Str), findWordInDatabaseOld s t = some k →
      ∃ u ∈ s, u.english = k ∧
        (sqlEq u.english t = true ∨ sqlEq u.cantonese t = true ∨
         normalizeWord u.english = normalizeWord t ∨
         normalizeWord u.cantonese = normalizeWord t)) :=
  findWordInDatabase_slash_parts
    [⟨"shop".data, "sik6 coeng2 / zaap6 fo3 pou3".data,
      "2024-01-01".data, some 1⟩]
    "sik6 coeng2".data
    ⟨"shop".data, "sik6 coeng2 / zaap6 fo3 pou3".data,
      "2024-01-01".data, some 1⟩
    (by decide) (by decide) (by decide) (by decide)

/-! ### C5: order of the matcher rules across records -/

/-- Counterexample to C5: the normalized comparisons (rules 3 and 4) are
checked record by record in one scan, not rule by rule.  Here the first
record matches only through a slash part of its translation (rule 4) and
the second record matches through its normalized key (rule 3); neither
record matches the exact rules 1 or 2; yet the matcher returns the first
record's key, not the rule-3 record's. -/
theorem findWordInDatabase_rule_order_cex :
    findWordInDatabase
      [⟨"a".data, "foo baz / qux".data, "2024-01-01".data, some 1⟩,
       ⟨"foo  baz".data, "x1".data, "2024-01-01".data, some 1⟩]
      "foo baz".data = some "a".data ∧
    normalizeWord "foo  baz".data = normalizeWord "foo baz".data ∧
    normalizeWord "a".data ≠ normalizeWord "foo baz".data ∧
    normalizeWord "foo baz / qux".data ≠ normalizeWord "foo baz".data ∧
    ((splitSlash (normalizeWord "foo baz / qux".data)).map jsTrim).contains
      (normalizeWord "foo baz".data) = true ∧
    sqlEq "a".data "foo baz".data = false ∧
    sqlEq "foo baz / qux".data "foo baz".data = false ∧
    sqlEq "foo  baz".data "foo baz".data = false ∧
    sqlEq "x1".data "foo baz".data = false ∧
    "a".data ≠ "foo  baz".data := by
  decide

theorem findSome?_append_first {g : WordRecord → Option Str} {a : Str} :
    ∀ (pre : List WordRecord) (post : List WordRecord) (r : WordRecord),
      (∀ u ∈ pre, g u = none) → g r = some a →
      ((pre ++ r :: post).findSome? g) = some a := by
  intro pre
  induction pre with
  | nil =>
    intro post r _ hr
    rw [List.nil_append, List.findSome?_cons, hr]
  | cons b bs ih =>
    intro post r hpre hr
    rw [List.cons_append, List.findSome?_cons,
      hpre b (List.mem_cons_self _ _)]
    exact ih post r (fun u hu => hpre u (List.mem_cons_of_mem _ hu)) hr

/-- C5 as amended: rules 1 and 2 each scan the whole store first; the
normalized comparisons of rules 3 and 4 are then checked together, record
by record, in store order.  A record matching rule 3 is therefore returned
when no record matches rules 1 or 2 and every record before it matches
neither rule 3 nor rule 4 — not regardless of store order. -/
theorem findWordInDatabase_scan_order
    (pre post : List WordRecord) (r : WordRecord) (q : Str)
    (hns : normalizeWord q ≠ [])
    (h1 : ∀ u ∈ pre ++ r :: post, sqlEq u.english q = false)
    (h2 : ∀ u ∈ pre ++ r :: post, sqlEq u.cantonese q = false)
    (hr3 : normalizeWord r.english = normalizeWord q ∨
      normalizeWord r.cantonese = normalizeWord q)
    (hpre : ∀ u ∈ pre, fuzzyRow (normalizeWord q) u = none) :
    findWordInDatabase (pre ++ r :: post) q = some r.english := by
  have hqne : q ≠ [] := by
    intro hcon
    apply hns
    rw [hcon]
    rfl
  have hee : q.isEmpty = false := by
    cases q with
    | nil => exact absurd rfl hqne
    | cons a l => rfl
  have hnse : (normalizeWord q).isEmpty = false := by
    cases hcon : normalizeWord q with
    | nil => exact absurd hcon hns
    | cons a l => rfl
  have hf1 : (pre ++ r :: post).find? (fun w => sqlEq w.english q) = none := by
    rw [List.find?_eq_none]
    intro u hu
    simp [h1 u hu]
  have hf2 : (pre ++ r :: post).find? (fun w => sqlEq w.cantonese q) = none := by
    rw [List.find?_eq_none]
    intro u hu
    simp [h2 u hu]
  have hgr : fuzzyRow (normalizeWord q) r = some r.english := by
    unfold fuzzyRow
    by_cases hb1 : normalizeWord r.english == normalizeWord q
    · rw [if_pos hb1]
    · rw [if_neg hb1]
      rcases hr3 with h | h
      · exact absurd (by rw [h]; exact beq_self_eq_true _) hb1
      · have hb2 : (normalizeWord r.cantonese == normalizeWord q) = true := by
          rw [h]
          exact beq_self_eq_true _
        rw [if_pos hb2]
  simp only [findWordInDatabase, hee, hnse, Bool.false_eq_true, if_false,
    hf1, hf2]
  exact findSome?_append_first pre post r hpre hgr

/-- Witness for the amended C5: the rule-3 record placed first is found
ahead of a later record matching only through a slash part. -/
theorem findWordInDatabase_scan_order_witness :
    findWordInDatabase
      ([] ++ (⟨"foo  baz".data, "x1".data, "2024-01-01".data, some 1⟩ :
          WordRecord) ::
        [⟨"a".data, "foo baz / qux".data, "2024-01-01".data, some 1⟩])
      "foo baz".data = some "foo  baz".data :=
  findWordInDatabase_scan_order []
    [⟨"a".data, "foo baz / qux".data, "2024-01-01".data, some 1⟩]
    ⟨"foo  baz".data, "x1".data, "2024-01-01".data, some 1⟩
    "foo baz".data
    (by decide) (by decide) (by decide) (by decide) (by decide)

end LanguageTutor
